import Mathlib

/-!
Verification of the Ising-model energy-density notebook.

The repository is a single notebook that computes the ground-state energy
density of the transverse-field Ising model,
  ε(g) = (1/π) ∫₀^π sqrt((g − cos x)² + sin² x) dx,
by numerical quadrature (scipy.integrate.quad), sweeping g = 0.1·i for
i = 0, …, 20 (cells 6 and 8).  We embed the mathematical content of the
source formulas over the exact reals, and the control flow of the sweep
loop over an executable model of the quadrature engine.
-/

open Real MeasureTheory

noncomputable section

/-- The integrand lambda of cells 6 and 8:
`y = lambda x: sqrt((g-cos(x))**2 + sin(x)**2)`. -/
def integrand (g x : ℝ) : ℝ := Real.sqrt ((g - Real.cos x) ^ 2 + Real.sin x ^ 2)

/-- The simplified integrand printed by cell 2:
`sqrt(g**2 - 2*g*cos(x) + 1)`. -/
def integrandSimplified (g x : ℝ) : ℝ := Real.sqrt (g ^ 2 - 2 * g * Real.cos x + 1)

/-- The energy density computed by cells 6 and 8: `e = (1/pi) * I[0]` where
`I = integrate.quad(y, 0, pi)`, read in exact-real semantics as the interval
integral of the integrand over `[0, π]` scaled by `1/π`. -/
def epsilon (g : ℝ) : ℝ := (1 / π) * ∫ x in (0:ℝ)..π, integrand g x

/-- The sweep driver of cell 8, generalized to its input sequence: for each
`g` (in order) it records the pair `(g, ε(g))`. -/
def sweep (gs : List ℝ) : List (ℝ × ℝ) := gs.map (fun g => (g, epsilon g))

/-- The sampled coupling values of cell 8: `g = 0.1*i` for `i in range(0,21)`. -/
def gValues : List ℝ := (List.range 21).map (fun i => 0.1 * (i : ℝ))

end

/-- The radicand is a sum of squares, hence non-negative. -/
lemma radicand_nonneg (g x : ℝ) : 0 ≤ (g - Real.cos x) ^ 2 + Real.sin x ^ 2 := by
  positivity

/-- The integrand is a square root, hence non-negative. -/
lemma integrand_nonneg (g x : ℝ) : 0 ≤ integrand g x := Real.sqrt_nonneg _

/-- The integrand is continuous in `x` for every fixed `g`. -/
lemma continuous_integrand (g : ℝ) : Continuous (integrand g) := by
  unfold integrand
  exact (((continuous_const.sub Real.continuous_cos).pow 2).add
    (Real.continuous_sin.pow 2)).sqrt

/-- The integrand is interval-integrable on `[0, π]`. -/
lemma integrand_intervalIntegrable (g : ℝ) :
    IntervalIntegrable (integrand g) volume 0 π :=
  (continuous_integrand g).intervalIntegrable 0 π

/-- The defining integral of `ε(g)` is non-negative. -/
lemma integral_integrand_nonneg (g : ℝ) : 0 ≤ ∫ x in (0:ℝ)..π, integrand g x :=
  intervalIntegral.integral_nonneg Real.pi_pos.le (fun x _ => integrand_nonneg g x)

/-- `ε(g)` is non-negative for every `g`. -/
lemma epsilon_nonneg (g : ℝ) : 0 ≤ epsilon g :=
  mul_nonneg (by positivity) (integral_integrand_nonneg g)

/-- At `g = 0` the integrand is constantly `1`. -/
lemma integrand_zero (x : ℝ) : integrand 0 x = 1 := by
  unfold integrand
  have h : (0 - Real.cos x) ^ 2 + Real.sin x ^ 2 = 1 := by
    have := Real.sin_sq_add_cos_sq x
    nlinarith
  rw [h, Real.sqrt_one]

/-- C3: the `i = 0` iteration of the cell-8 sweep: the integrand at `g = 0`
reduces to `sqrt(cos²x + sin²x) = 1`, and `(1/π)·∫₀^π 1 dx = 1`, so the
computed energy density satisfies `ε(0) = 1` exactly. -/
theorem epsilon_zero_eq_one : epsilon 0 = 1 := by
  unfold epsilon
  have h : (∫ x in (0:ℝ)..π, integrand 0 x) = π := by
    simp_rw [integrand_zero]
    simp
  rw [h]
  field_simp

/-- On `[0, π]` the integrand at `g = 1` equals `2·sin(x/2)`. -/
lemma integrand_one (x : ℝ) (h0 : 0 ≤ x) (hπ : x ≤ π) :
    integrand 1 x = 2 * Real.sin (x / 2) := by
  unfold integrand
  have hcos : Real.cos x = 1 - 2 * Real.sin (x / 2) ^ 2 := by
    have h1 : Real.cos (2 * (x / 2)) = 2 * Real.cos (x / 2) ^ 2 - 1 :=
      Real.cos_two_mul _
    have h2 : Real.sin (x / 2) ^ 2 + Real.cos (x / 2) ^ 2 = 1 :=
      Real.sin_sq_add_cos_sq _
    have h3 : (2:ℝ) * (x / 2) = x := by ring
    rw [h3] at h1
    linarith
  have hrad : (1 - Real.cos x) ^ 2 + Real.sin x ^ 2 = (2 * Real.sin (x / 2)) ^ 2 := by
    have := Real.sin_sq_add_cos_sq x
    nlinarith
  have hs : 0 ≤ 2 * Real.sin (x / 2) := by
    have : 0 ≤ Real.sin (x / 2) :=
      Real.sin_nonneg_of_nonneg_of_le_pi (by linarith) (by linarith [Real.pi_pos])
    linarith
  rw [hrad, Real.sqrt_sq hs]

/-- The integral of the integrand at `g = 1` over `[0, π]` is exactly `4`,
as the notebook cell-6 output `(3.9999999999999996, 4.44e-14)` reflects. -/
lemma integral_integrand_one : (∫ x in (0:ℝ)..π, integrand 1 x) = 4 := by
  have hcongr : (∫ x in (0:ℝ)..π, integrand 1 x)
      = ∫ x in (0:ℝ)..π, 2 * Real.sin (x / 2) := by
    apply intervalIntegral.integral_congr
    intro x hx
    rw [Set.uIcc_of_le Real.pi_pos.le] at hx
    exact integrand_one x hx.1 hx.2
  rw [hcongr, intervalIntegral.integral_const_mul,
    intervalIntegral.integral_comp_div Real.sin (by norm_num : (2:ℝ) ≠ 0),
    integral_sin]
  norm_num [Real.cos_pi_div_two]

/-- C4: the cell-6 computation at `g = 1`: the computed energy density equals
`4/π` exactly, and `4/π` agrees with the printed reference value
`1.2732395447351625` to within `10⁻⁶`. -/
theorem epsilon_one_eq_four_div_pi :
    epsilon 1 = 4 / π ∧ |epsilon 1 - 1.2732395447351625| < 1e-6 := by
  have h : epsilon 1 = 4 / π := by
    unfold epsilon
    rw [integral_integrand_one]
    ring
  refine ⟨h, ?_⟩
  rw [h]
  have hπ : 0 < π := Real.pi_pos
  have hlo : (3.141592 : ℝ) < π := Real.pi_gt_d6
  have hhi : π < (3.141593 : ℝ) := Real.pi_lt_d6
  have hub : 4 / π < 1.27324 := by
    rw [div_lt_iff₀ hπ]
    nlinarith
  have hlb : (1.2732393 : ℝ) < 4 / π := by
    rw [lt_div_iff₀ hπ]
    nlinarith
  rw [abs_sub_lt_iff]
  exact ⟨by linarith, by linarith⟩

/-- Pointwise monotonicity of the integrand in `g` for `1 ≤ g₁ ≤ g₂`:
since `cos x ≤ 1 ≤ g₁`, both shifted cosines are non-negative and ordered. -/
lemma integrand_mono_in_g {g₁ g₂ : ℝ} (h1 : 1 ≤ g₁) (h12 : g₁ ≤ g₂) (x : ℝ) :
    integrand g₁ x ≤ integrand g₂ x := by
  unfold integrand
  apply Real.sqrt_le_sqrt
  have hc : Real.cos x ≤ 1 := Real.cos_le_one x
  nlinarith

/-- C5: monotonicity of the computed energy density over the sampled upper
range: for `1 ≤ g₁ ≤ g₂ ≤ 2`, `ε(g₁) ≤ ε(g₂)` (the integrand is pointwise
non-decreasing in `g` there, so the cell-8 integrals are ordered). -/
theorem epsilon_mono_on_upper_range (g₁ g₂ : ℝ)
    (h1 : 1 ≤ g₁) (h12 : g₁ ≤ g₂) (h2 : g₂ ≤ 2) : epsilon g₁ ≤ epsilon g₂ := by
  unfold epsilon
  apply mul_le_mul_of_nonneg_left _ (by positivity)
  exact intervalIntegral.integral_mono_on Real.pi_pos.le
    (integrand_intervalIntegrable g₁) (integrand_intervalIntegrable g₂)
    (fun x _ => integrand_mono_in_g h1 h12 x)

/-- Witness for C5 at the concrete sweep endpoints `g = 1` and `g = 2`. -/
theorem epsilon_mono_on_upper_range_witness : epsilon 1 ≤ epsilon 2 :=
  epsilon_mono_on_upper_range 1 2 (by norm_num) (by norm_num) (by norm_num)

/-- C6: invariants of the cell-8 sweep result: it has one entry per sampled
`g` value (21 of them), the entries appear in the input sweep order (their
first components are exactly `gValues`), every recorded energy density is
non-negative, and each is given by a genuine (finite) interval integral of
an integrable function. -/
theorem sweep_invariants :
    (sweep gValues).length = gValues.length ∧
    (sweep gValues).map Prod.fst = gValues ∧
    (∀ i : Fin (sweep gValues).length, 0 ≤ ((sweep gValues).get i).2) ∧
    (∀ g : ℝ, IntervalIntegrable (integrand g) MeasureTheory.volume 0 π) := by
  refine ⟨List.length_map _ _, ?_, ?_, integrand_intervalIntegrable⟩
  · have hcomp : (Prod.fst ∘ fun g : ℝ => (g, epsilon g)) = id := rfl
    rw [sweep, List.map_map, hcomp, List.map_id]
  · intro i
    simp only [sweep, List.get_eq_getElem, List.getElem_map]
    exact epsilon_nonneg _

/-- C7: safety of the integrand evaluation: for every real `g` and `x` the
radicand `(g − cos x)² + sin² x` is non-negative (a sum of squares), the
integrand value is non-negative, and the quadrature over `[0, π]` is of an
integrable (indeed continuous) function, so it completes even at the cusp. -/
theorem integrand_safe (g x : ℝ) :
    0 ≤ (g - Real.cos x) ^ 2 + Real.sin x ^ 2 ∧
    0 ≤ integrand g x ∧
    IntervalIntegrable (integrand g) MeasureTheory.volume 0 π :=
  ⟨radicand_nonneg g x, integrand_nonneg g x, integrand_intervalIntegrable g⟩

/-- C9: sweeping an empty sequence of `g` values yields the empty result
sequence (the cell-8 loop body never runs), and no error is possible since
`sweep` is a total function. -/
theorem sweep_empty : sweep ([] : List ℝ) = [] := rfl

/-- Pointwise equality of the two radicand forms (cell 2's simplification). -/
lemma radicand_eq (g x : ℝ) :
    (g - Real.cos x) ^ 2 + Real.sin x ^ 2 = g ^ 2 - 2 * g * Real.cos x + 1 := by
  have := Real.sin_sq_add_cos_sq x
  nlinarith

/-- C10: the original integrand of cell 6 and the simplified form printed by
cell 2 agree at every real `g` and `x` (their radicands are equal by
`sin²x + cos²x = 1`), so integrating the simplified form over `[0, π]`
yields the same `ε(g)`. -/
theorem integrand_simplified_equiv (g : ℝ) :
    (∀ x : ℝ, (g - Real.cos x) ^ 2 + Real.sin x ^ 2
        = g ^ 2 - 2 * g * Real.cos x + 1 ∧
      integrand g x = integrandSimplified g x) ∧
    (1 / π) * (∫ x in (0:ℝ)..π, integrandSimplified g x) = epsilon g := by
  have hpt : ∀ x : ℝ, integrand g x = integrandSimplified g x := by
    intro x
    unfold integrand integrandSimplified
    rw [radicand_eq]
  refine ⟨fun x => ⟨radicand_eq g x, hpt x⟩, ?_⟩
  unfold epsilon
  congr 1
  exact intervalIntegral.integral_congr (fun x _ => (hpt x).symm)

/-- Simpson's rule on a single interval, the basic estimate refined by the
adaptive engine. -/
def simpson (f : ℚ → ℚ) (a b : ℚ) : ℚ :=
  (b - a) / 6 * (f a + 4 * f ((a + b) / 2) + f b)

/-- The result of one quadrature call: the estimate, the error bound, and
the convergence signal. -/
structure QuadResult where
  estimate : ℚ
  errorBound : ℚ
  converged : Bool
deriving DecidableEq

/-- Modelled from the spec: the Quadrature Engine (`scipy.integrate.quad`) is
not part of the repository source — only its call sites in cells 6 and 8 are.
Per the spec it subdivides adaptively wherever the local error estimate
exceeds the tolerance, and reports non-convergence when the refinement
budget is exhausted without meeting tolerance. -/
def adaptiveStep (f : ℚ → ℚ) : ℕ → ℚ → ℚ → ℚ → ℚ × ℚ × Bool
  | 0, a, b, tol =>
    let m := (a + b) / 2
    let refined := simpson f a m + simpson f m b
    let err := |refined - simpson f a b|
    (refined, err, decide (err ≤ tol))
  | n + 1, a, b, tol =>
    let m := (a + b) / 2
    let refined := simpson f a m + simpson f m b
    let err := |refined - simpson f a b|
    if err ≤ tol then (refined, err, true)
    else
      let l := adaptiveStep f n a m (tol / 2)
      let r := adaptiveStep f n m b (tol / 2)
      (l.1 + r.1, l.2.1 + r.2.1, l.2.2 && r.2.2)

/-- Modelled from the spec: the Quadrature Engine entry point
`integrate.quad(f, a, b)` with an explicit tolerance and refinement budget;
it takes no state argument and returns a fresh result per call. -/
def quadEngine (f : ℚ → ℚ) (a b tol : ℚ) (budget : ℕ) : QuadResult :=
  let r := adaptiveStep f budget a b tol
  ⟨r.1, r.2.1, r.2.2⟩

/-- The cell-8 sweep loop over the modelled engine: for each `g` (in order)
it builds the integrand closure `F g`, calls the engine, and unconditionally
records the scaled first component of the result (`e = (1/pi)*I[0]`, with
`piApprox` standing for the constant `pi`), without inspecting the
convergence signal — exactly the structure of the source loop. -/
def sweepDriver (F : ℚ → ℚ → ℚ) (a b tol : ℚ) (budget : ℕ) (piApprox : ℚ)
    (gs : List ℚ) : List ℚ :=
  gs.map (fun g => (1 / piApprox) * (quadEngine (F g) a b tol budget).estimate)

/-- Modelled from the spec: the abort-on-non-convergence Sweep Driver of the
error-handling design: a sweep point whose quadrature call signals
non-convergence is aborted rather than its unvalidated estimate being
inserted into the result sequence. -/
def sweepDriverAbort (F : ℚ → ℚ → ℚ) (a b tol : ℚ) (budget : ℕ) (piApprox : ℚ)
    (gs : List ℚ) : List ℚ :=
  gs.filterMap (fun g =>
    if (quadEngine (F g) a b tol budget).converged then
      some ((1 / piApprox) * (quadEngine (F g) a b tol budget).estimate)
    else none)

/-- When every call converges, recording unconditionally agrees with
abort-on-non-convergence semantics. -/
lemma sweepDriver_eq_abort_of_converged (F : ℚ → ℚ → ℚ) (a b tol : ℚ)
    (budget : ℕ) (piApprox : ℚ) (gs : List ℚ)
    (h : ∀ g ∈ gs, (quadEngine (F g) a b tol budget).converged = true) :
    sweepDriver F a b tol budget piApprox gs
      = sweepDriverAbort F a b tol budget piApprox gs := by
  induction gs with
  | nil => rfl
  | cons g rest ih =>
    have hg := h g (List.mem_cons_self g rest)
    have hrest := fun g' hg' => h g' (List.mem_cons_of_mem _ hg')
    simp only [sweepDriver, sweepDriverAbort, List.map_cons, List.filterMap_cons,
      hg, if_true]
    exact congrArg _ (ih hrest)

/-- C2 counterexample: at integrand `x⁴` with a zero refinement budget and
tolerance `1/1000`, the engine signals non-convergence, yet the cell-8 style
driver still inserts the unvalidated estimate: its output differs from the
abort-on-non-convergence output (which drops the point). -/
theorem sweepDriver_ignores_nonconvergence_cex :
    (quadEngine (fun x => x ^ 4) 0 1 (1 / 1000) 0).converged = false ∧
    sweepDriver (fun _ x => x ^ 4) 0 1 (1 / 1000) 0 (355 / 113) [0] ≠
      sweepDriverAbort (fun _ x => x ^ 4) 0 1 (1 / 1000) 0 (355 / 113) [0] := by
  constructor
  · norm_num [quadEngine, adaptiveStep, simpson, abs_of_nonneg]
  · norm_num [sweepDriver, sweepDriverAbort, quadEngine, adaptiveStep, simpson,
      abs_of_nonneg]

/-- C2 amended: the sweep driver records one (scaled) estimate per `g`
unconditionally — the output length always equals the input length, and the
driver agrees with abort-on-non-convergence semantics only under the
additional assumption that every quadrature call converged. -/
theorem sweepDriver_inserts_unconditionally (F : ℚ → ℚ → ℚ) (a b tol : ℚ)
    (budget : ℕ) (piApprox : ℚ) (gs : List ℚ) :
    (sweepDriver F a b tol budget piApprox gs).length = gs.length ∧
    ((∀ g ∈ gs, (quadEngine (F g) a b tol budget).converged = true) →
      sweepDriver F a b tol budget piApprox gs
        = sweepDriverAbort F a b tol budget piApprox gs) :=
  ⟨List.length_map _ _,
    sweepDriver_eq_abort_of_converged F a b tol budget piApprox gs⟩

/-- Witness for the amended C2 at a converging configuration (a linear
integrand, on which Simpson's rule is exact). -/
theorem sweepDriver_inserts_unconditionally_witness :
    (∀ g ∈ [(0:ℚ)], (quadEngine ((fun _ x => x) g) 0 1 1 1).converged = true) ∧
    sweepDriver (fun _ x => x) 0 1 1 1 (355 / 113) [0]
      = sweepDriverAbort (fun _ x => x) 0 1 1 1 (355 / 113) [0] := by
  have hconv : ∀ g ∈ [(0:ℚ)],
      (quadEngine ((fun _ x => x) g) 0 1 1 1).converged = true := by
    intro g hg
    rw [List.mem_singleton] at hg
    subst hg
    norm_num [quadEngine, adaptiveStep, simpson, abs_of_nonneg]
  exact ⟨hconv,
    (sweepDriver_inserts_unconditionally (fun _ x => x) 0 1 1 1 (355 / 113)
      [0]).2 hconv⟩

/-- C8: the Quadrature Engine is deterministic — two calls with identical
integrand, bounds, tolerance and budget return identical results; the engine
takes no state argument, so no hidden state is carried between calls. -/
theorem quadEngine_deterministic (f₁ f₂ : ℚ → ℚ) (a₁ a₂ b₁ b₂ t₁ t₂ : ℚ)
    (n₁ n₂ : ℕ) (hf : f₁ = f₂) (ha : a₁ = a₂) (hb : b₁ = b₂) (ht : t₁ = t₂)
    (hn : n₁ = n₂) :
    quadEngine f₁ a₁ b₁ t₁ n₁ = quadEngine f₂ a₂ b₂ t₂ n₂ := by
  subst hf ha hb ht hn
  rfl

/-- Witness for C8 at a concrete call. -/
theorem quadEngine_deterministic_witness :
    quadEngine (fun x => x ^ 2) 0 1 (1 / 100) 2
      = quadEngine (fun x => x ^ 2) 0 1 (1 / 100) 2 :=
  quadEngine_deterministic _ _ _ _ _ _ _ _ _ _ rfl rfl rfl rfl rfl
